import Mathlib

set_option maxRecDepth 10000

/-!
Verification of the daily-text extraction core of the jw-daily-text plugin
(src/fetcher.ts): the scripture, citation and commentary extractors and the
shared HTML-cleaning utility.  Strings are modelled as lists of characters;
the JavaScript regular expressions used by the source are modelled by
explicit scanning functions that reproduce their leftmost-match,
greedy/lazy and backtracking behaviour on the character level.
Functions whose scan can jump forward by more than one character carry an
explicit fuel argument (always instantiated with the input length, which
over-approximates the number of scanning steps), so that every definition
is structurally recursive and computable by the kernel.
-/

/-- The JavaScript whitespace class: the set of characters trimmed by
String.trim and matched by the regex class backslash-s. -/
def isJsWs (c : Char) : Bool :=
  decide (c = ' ') || decide (c = '\t') || decide (c = '\n') || decide (c = '\r') ||
  decide (c = Char.ofNat 11) || decide (c = Char.ofNat 12) ||
  decide (c = Char.ofNat 160) || decide (c = Char.ofNat 0x1680) ||
  (decide (0x2000 ≤ c.toNat) && decide (c.toNat ≤ 0x200A)) ||
  decide (c = Char.ofNat 0x2028) || decide (c = Char.ofNat 0x2029) ||
  decide (c = Char.ofNat 0x202F) || decide (c = Char.ofNat 0x205F) ||
  decide (c = Char.ofNat 0x3000) || decide (c = Char.ofNat 0xFEFF)

/-- Line terminators, which the JavaScript regex dot does not match
when the s flag is absent. -/
def isLineTerm (c : Char) : Bool :=
  decide (c = '\n') || decide (c = '\r') ||
  decide (c = Char.ofNat 0x2028) || decide (c = Char.ofNat 0x2029)

/-- Model of JavaScript String.trim: remove leading and trailing
whitespace. -/
def trimList (s : List Char) : List Char :=
  (((s.dropWhile isJsWs).reverse).dropWhile isJsWs).reverse

/-- Boolean test that the first list is a prefix of the second. -/
def isPfx : List Char → List Char → Bool
  | [], _ => true
  | _ :: _, [] => false
  | p :: ps, c :: cs => decide (p = c) && isPfx ps cs

/-- Case-insensitive prefix test against an already-lowercased pattern,
modelling the ASCII effect of the regex i flag. -/
def ciPfx : List Char → List Char → Bool
  | [], _ => true
  | _ :: _, [] => false
  | p :: ps, c :: cs => decide (p = c.toLower) && ciPfx ps cs

/-- Boolean substring test (model of String.includes). -/
def containsSub (pat : List Char) : List Char → Bool
  | [] => isPfx pat []
  | c :: rest => isPfx pat (c :: rest) || containsSub pat rest

/-- One global replacement pass for a literal pattern: leftmost
non-overlapping matches are replaced and scanning resumes after the
replacement, as JavaScript String.replace with the g flag does.
Fuelled; fuel of at least the input length covers the whole input. -/
def replF (pat rep : List Char) : Nat → List Char → List Char
  | _, [] => []
  | 0, c :: rest => c :: rest
  | f+1, c :: rest =>
    if isPfx pat (c :: rest) then rep ++ replF pat rep f (rest.drop (pat.length - 1))
    else c :: replF pat rep f rest

/-- Global literal replacement over a whole string. -/
def replaceAll (pat rep s : List Char) : List Char := replF pat rep s.length s

/-- Split at the first greater-than sign, returning the characters
before it and the remainder after it. -/
def upToGt : List Char → Option (List Char × List Char)
  | [] => none
  | c :: rest =>
    if decide (c = '>') then some ([], rest)
    else
      match upToGt rest with
      | some (a, b) => some (c :: a, b)
      | none => none

/-- Remainder after the first greater-than sign, if any. -/
def afterGt (s : List Char) : Option (List Char) :=
  match upToGt s with
  | some (_, r) => some r
  | none => none

/-- Split at the first double quote, returning the characters before it
and the remainder after it. -/
def upToQuote : List Char → Option (List Char × List Char)
  | [] => none
  | c :: rest =>
    if decide (c = Char.ofNat 34) then some ([], rest)
    else
      match upToQuote rest with
      | some (a, b) => some (c :: a, b)
      | none => none

/-- Model of the tag-stripping replace with pattern less-than,
any-non-greater-than-run, greater-than: each left angle bracket that is
followed by a closing right angle bracket is removed together with
everything up to that bracket; a left angle bracket with no later right
angle bracket is kept. -/
def stripTagsF : Nat → List Char → List Char
  | _, [] => []
  | 0, c :: rest => c :: rest
  | f+1, c :: rest =>
    if decide (c = '<') then
      match afterGt rest with
      | some r => stripTagsF f r
      | none => c :: stripTagsF f rest
    else c :: stripTagsF f rest

/-- Tag stripping over a whole string. -/
def stripTags (s : List Char) : List Char := stripTagsF s.length s

/-- The literal entity patterns decoded by cleanHtml, in source order. -/
def entNbsp : List Char := ['&', 'n', 'b', 's', 'p', ';']

def entAmp : List Char := ['&', 'a', 'm', 'p', ';']

def entLt : List Char := ['&', 'l', 't', ';']

def entGt : List Char := ['&', 'g', 't', ';']

def entQuot : List Char := ['&', 'q', 'u', 'o', 't', ';']

def entApos : List Char := ['&', '#', '3', '9', ';']

def entZwsp : List Char := ['&', '#', '8', '2', '0', '3', ';']

/-- The zero-width space character U+200B. -/
def zwspChar : Char := Char.ofNat 0x200B

/-- Model of cleanHtml: strip markup tags, decode the entities in source
order (non-breaking space, ampersand, less-than, greater-than, double
quote, apostrophe), remove zero-width spaces in entity and literal form,
and trim. -/
def cleanHtml (s : List Char) : List Char :=
  trimList (replaceAll [zwspChar] []
    (replaceAll entZwsp []
      (replaceAll entApos [Char.ofNat 39]
        (replaceAll entQuot [Char.ofNat 34]
          (replaceAll entGt ['>']
            (replaceAll entLt ['<']
              (replaceAll entAmp ['&']
                (replaceAll entNbsp [' ']
                  (stripTags s)))))))))

/-- Lazy scan up to the first occurrence of a literal pattern, the dot
matching every character (regex s flag): returns the characters before
the occurrence and the remainder after it. -/
def lazyAnyTo (pat : List Char) : List Char → Option (List Char × List Char)
  | [] => none
  | c :: rest =>
    if isPfx pat (c :: rest) then some ([], (c :: rest).drop pat.length)
    else
      match lazyAnyTo pat rest with
      | some (x, r) => some (c :: x, r)
      | none => none

/-- Lazy scan up to the first occurrence of a literal pattern, the dot
not matching line terminators (no s flag). -/
def lazyDotTo (pat : List Char) : List Char → Option (List Char × List Char)
  | [] => none
  | c :: rest =>
    if isPfx pat (c :: rest) then some ([], (c :: rest).drop pat.length)
    else if isLineTerm c then none
    else
      match lazyDotTo pat rest with
      | some (x, r) => some (c :: x, r)
      | none => none

/-- Lazy scan up to the first case-insensitive closing anchor tag,
the dot not matching line terminators. -/
def lazyDotToCloseA : List Char → Option (List Char × List Char)
  | [] => none
  | c :: rest =>
    if ciPfx ['<', '/', 'a', '>'] (c :: rest) then some ([], (c :: rest).drop 4)
    else if isLineTerm c then none
    else
      match lazyDotToCloseA rest with
      | some (x, r) => some (c :: x, r)
      | none => none

/-- Match of a paragraph tag at the head of the input: a left angle
bracket, optionally a slash when slash-tags are admitted, the letter p,
a run of non-greater-than characters and a right angle bracket.  On
success the remainder after the tag is returned. -/
def pTagRest (slash : Bool) : List Char → Option (List Char)
  | '<' :: '/' :: 'p' :: r => if slash then afterGt r else none
  | '<' :: 'p' :: r => afterGt r
  | _ => none

/-- Regex split on paragraph tags: the input is cut at every leftmost
non-overlapping tag match, the matches being discarded.  Fuelled. -/
def splitTagF (slash : Bool) : Nat → List Char → List Char → List (List Char)
  | _, acc, [] => [acc.reverse]
  | 0, acc, c :: rest => [acc.reverse ++ (c :: rest)]
  | f+1, acc, c :: rest =>
    match pTagRest slash (c :: rest) with
    | some r => acc.reverse :: splitTagF slash f [] r
    | none => splitTagF slash f (c :: acc) rest

/-- Split on opening and closing paragraph tags, as extractScripture does. -/
def splitPTags (html : List Char) : List (List Char) := splitTagF true html.length [] html

/-- Split on opening paragraph tags only, as extractCommentary does. -/
def splitPOpen (html : List Char) : List (List Char) := splitTagF false html.length [] html

/-- True when no position of the input starts a paragraph tag. -/
def noPTagsFrom : List Char → Bool
  | [] => true
  | c :: rest => (pTagRest true (c :: rest)).isNone && noPTagsFrom rest

/-- The literal opening emphasis tag. -/
def emOpen : List Char := ['<', 'e', 'm', '>']

/-- The literal closing emphasis tag. -/
def emClose : List Char := ['<', '/', 'e', 'm', '>']

/-- All matches of the emphasis-span regex (opening tag, lazy any-run,
closing tag, with the g and s flags): the full match strings in document
order.  Fuelled. -/
def emMatchesF : Nat → List Char → List (List Char)
  | _, [] => []
  | 0, _ :: _ => []
  | f+1, c :: rest =>
    if isPfx emOpen (c :: rest) then
      match lazyAnyTo emClose ((c :: rest).drop 4) with
      | some (x, r) => (emOpen ++ x ++ emClose) :: emMatchesF f r
      | none => emMatchesF f rest
    else emMatchesF f rest

/-- All emphasis-span matches of an input. -/
def emMatches (html : List Char) : List (List Char) := emMatchesF html.length html

/-- Global removal of literal opening and closing emphasis tags in a
single alternation scan.  Fuelled. -/
def remEmTagsF : Nat → List Char → List Char
  | _, [] => []
  | 0, c :: rest => c :: rest
  | f+1, c :: rest =>
    if isPfx emClose (c :: rest) then remEmTagsF f ((c :: rest).drop 5)
    else if isPfx emOpen (c :: rest) then remEmTagsF f ((c :: rest).drop 4)
    else c :: remEmTagsF f rest

/-- Removal of emphasis tags over a whole string. -/
def remEmTags (s : List Char) : List Char := remEmTagsF s.length s

/-- The normalized texts of all emphasis spans, in document order:
each full match with its emphasis tags removed, then cleaned. -/
def emContents (html : List Char) : List (List Char) :=
  (emMatches html).map (fun em => cleanHtml (remEmTags em))

/-- Match, at the head of the input, of the anchor regex used by the
link-only paragraph test: a literal lowercase anchor opening, a
non-greater-than run, a right angle bracket, a lazy dot-run and the
literal closing anchor tag.  Returns the full match string. -/
def anchorAt : List Char → Option (List Char)
  | '<' :: 'a' :: rest =>
    (match upToGt rest with
     | some (attrs, r1) =>
       match lazyDotTo ['<', '/', 'a', '>'] r1 with
       | some (mid, _) => some ('<' :: 'a' :: (attrs ++ '>' :: (mid ++ ['<', '/', 'a', '>'])))
       | none => none
     | none => none)
  | _ => none

/-- The leftmost anchor-regex match of the input, if any. -/
def firstAnchorMatch : List Char → Option (List Char)
  | [] => none
  | c :: rest =>
    match anchorAt (c :: rest) with
    | some m => some m
    | none => firstAnchorMatch rest

/-- The literal text the link-only test searches for. -/
def aHrefLit : List Char := ['<', 'a', ' ', 'h', 'r', 'e', 'f']

/-- The link-only paragraph test of extractScripture: the paragraph
mentions an anchor href and its first anchor match equals the whole
trimmed paragraph. -/
def isLinkOnly (para : List Char) : Bool :=
  containsSub aHrefLit para &&
    (match firstAnchorMatch para with
     | some m => decide (m = trimList para)
     | none => false)

/-- The lowercased weekday names of the header rejection pattern. -/
def weekdayWords : List (List Char) :=
  ["monday".data, "tuesday".data, "wednesday".data, "thursday".data,
   "friday".data, "saturday".data, "sunday".data]

/-- Case-insensitive test that the text starts with a weekday name. -/
def startsWeekday (s : List Char) : Bool := weekdayWords.any (fun w => ciPfx w s)

/-- The lowercased month names of the header rejection pattern. -/
def monthWords : List (List Char) :=
  ["january".data, "february".data, "march".data, "april".data, "may".data,
   "june".data, "july".data, "august".data, "september".data, "october".data,
   "november".data, "december".data]

/-- Case-insensitive test that the text starts with a month name. -/
def startsMonth (s : List Char) : Bool := monthWords.any (fun w => ciPfx w s)

/-- Test that the text starts with an em dash. -/
def startsEmDash (s : List Char) : Bool := decide (s.head? = some '—')

/-- Test of the leading numeric book reference pattern: one or more
digits, optional whitespace, one or more letters, then a period. -/
def startsNumBook (s : List Char) : Bool :=
  (!(s.takeWhile Char.isDigit).isEmpty) &&
    (!(((s.dropWhile Char.isDigit).dropWhile isJsWs).takeWhile Char.isAlpha).isEmpty) &&
    decide ((((s.dropWhile Char.isDigit).dropWhile isJsWs).dropWhile Char.isAlpha).head? = some '.')

/-- Test of the bare date fragment pattern: one or two digits, a comma,
a space and exactly four digits filling the rest of the text. -/
def isDateFrag (s : List Char) : Bool :=
  (decide ((s.takeWhile Char.isDigit).length = 1) || decide ((s.takeWhile Char.isDigit).length = 2)) &&
    (match s.dropWhile Char.isDigit with
     | ',' :: ' ' :: r2 =>
       decide ((r2.takeWhile Char.isDigit).length = 4) && (r2.dropWhile Char.isDigit).isEmpty
     | _ => false)

/-- Test of the ISO date pattern: four digits, a dash, two digits, a
dash and two digits filling the whole text. -/
def isIsoDate (s : List Char) : Bool :=
  decide ((s.takeWhile Char.isDigit).length = 4) &&
    (match s.dropWhile Char.isDigit with
     | '-' :: r2 =>
       decide ((r2.takeWhile Char.isDigit).length = 2) &&
         (match r2.dropWhile Char.isDigit with
          | '-' :: r3 =>
            decide ((r3.takeWhile Char.isDigit).length = 2) && (r3.dropWhile Char.isDigit).isEmpty
          | _ => false)
     | _ => false)

/-- Dash characters stripped from the end of a scripture candidate. -/
def isDashChar (c : Char) : Bool := decide (c = '—') || decide (c = '-')

/-- Removal of the trailing run of dash characters, as the anchored
trailing-dash replace does. -/
def dropTrailingDashes (s : List Char) : List Char := (s.reverse.dropWhile isDashChar).reverse

/-- The ordered rejection checks extractScripture applies to a cleaned
paragraph: leading em dash, leading numeric book reference, weekday,
month, bare date fragment, ISO date, minimum length, footnote marker,
paragraph marker, minimum word count. -/
def rejectPara (c : List Char) : Bool :=
  startsEmDash c || startsNumBook c ||
  startsWeekday c || startsMonth c || isDateFrag c || isIsoDate c ||
  decide (c.length < 15) || containsSub "w24.".data c || c.contains '¶' ||
  decide (c.count ' ' + 1 < 5)

/-- The paragraph candidates of extractScripture: the paragraph-tag
split pieces that are non-blank and longer than ten characters. -/
def paragraphs (html : List Char) : List (List Char) :=
  (splitPTags html).filter (fun p => (!(trimList p).isEmpty) && decide (p.length > 10))

/-- The paragraph scan of extractScripture: the first candidate that is
not link-only and passes every rejection check is returned with its
trailing dashes stripped and trimmed. -/
def scriptureParaLoop : List (List Char) → Option (List Char)
  | [] => none
  | para :: rest =>
    if isLinkOnly para then scriptureParaLoop rest
    else if rejectPara (cleanHtml para) then scriptureParaLoop rest
    else some (trimList (dropTrailingDashes (cleanHtml para)))

/-- The emphasis-span fallback of extractScripture: the first span text
with no leading em dash, no leading numeric book reference and length
above ten is returned with its trailing dashes stripped and trimmed. -/
def scriptureEmLoop : List (List Char) → Option (List Char)
  | [] => none
  | content :: rest =>
    if (!startsEmDash content) && (!startsNumBook content) && decide (content.length > 10)
    then some (trimList (dropTrailingDashes content))
    else scriptureEmLoop rest

/-- Model of extractScripture: the paragraph scan, then the
emphasis-span fallback, then the empty string. -/
def extractScripture (html : List Char) : List Char :=
  match scriptureParaLoop (paragraphs html) with
  | some r => r
  | none =>
    match scriptureEmLoop (emContents html) with
    | some r => r
    | none => []

/-- The bible-reference scan after the optional leading digit one to
three, which the greedy optional quantifier consumes when present. -/
def refAfterNum : List Char → List Char
  | c :: r => if decide (c = '1') || decide (c = '2') || decide (c = '3') then r else c :: r
  | [] => []

/-- The bible-reference scan at the book-abbreviation letters, after
the optional digit and the whitespace run. -/
def refBook (s : List Char) : List Char := (refAfterNum s).dropWhile isJsWs

/-- The bible-reference scan after the book letters and the optional
period. -/
def refAfterBook (s : List Char) : List Char :=
  match (refBook s).dropWhile Char.isAlpha with
  | '.' :: r => r
  | r => r

/-- The chapter digits of the bible-reference scan. -/
def refChapterDigits (s : List Char) : List Char :=
  ((refAfterBook s).dropWhile isJsWs).takeWhile Char.isDigit

/-- The remainder of the bible-reference scan after the chapter digits
and the optional colon-verse group. -/
def refAfterChapter (s : List Char) : List Char :=
  match ((refAfterBook s).dropWhile isJsWs).dropWhile Char.isDigit with
  | ':' :: r => if (r.takeWhile Char.isDigit).isEmpty then ':' :: r else r.dropWhile Char.isDigit
  | r => r

/-- The anchored bible-reference shape of extractCitation: an optional
digit one to three, optional whitespace, letters, an optional period,
optional whitespace, digits, an optional colon-verse group and an
optional trailing period, filling the whole text. -/
def isBibleRef (s : List Char) : Bool :=
  (!((refBook s).takeWhile Char.isAlpha).isEmpty) &&
    (!(refChapterDigits s).isEmpty) &&
      (match refAfterChapter s with
       | [] => true
       | ['.'] => true
       | _ => false)

/-- The first citation pattern: an em dash, optional whitespace, then
the anchored bible-reference shape; the reference portion is returned
trimmed. -/
def citePatternA (content : List Char) : Option (List Char) :=
  match content with
  | '—' :: t =>
    if isBibleRef (t.dropWhile isJsWs) then some (trimList (t.dropWhile isJsWs)) else none
  | _ => none

/-- The second citation pattern: the anchored bible-reference shape
alone; the match is returned trimmed. -/
def citePatternB (content : List Char) : Option (List Char) :=
  if isBibleRef content then some (trimList content) else none

/-- The span scan of extractCitation: each span text is tested against
the first pattern, then the second; the first match wins. -/
def citationLoop : List (List Char) → Option (List Char)
  | [] => none
  | content :: rest =>
    match citePatternA content with
    | some r => some r
    | none =>
      match citePatternB content with
      | some r => some r
      | none => citationLoop rest

/-- Model of extractCitation: empty when there are no emphasis spans;
otherwise the pattern scan over the span texts, then the second span
text when at least two spans exist, then the empty string. -/
def extractCitation (html : List Char) : List Char :=
  if (emMatches html).isEmpty then []
  else
    match citationLoop (emContents html) with
    | some r => r
    | none =>
      match emContents html with
      | _ :: second :: _ => second
      | _ => []

/-- The lowercased literal the link regex requires between the anchor
opening and the captured URL. -/
def hrefPat : List Char := ['h', 'r', 'e', 'f', '=', Char.ofNat 34]

/-- The fixed base string prepended to captured link targets. -/
def linkBase : List Char := "https://wol.jw.org/en".data

/-- The deterministic tail of the link regex after a chosen href
position: the quoted non-empty URL, the rest of the opening tag up to
its right angle bracket, then the lazy run up to the case-insensitive
closing anchor tag.  Returns the URL, the link text and the remainder
after the whole match. -/
def tryAfterHref (s : List Char) : Option (List Char × List Char × List Char) :=
  match upToQuote s with
  | some (url, r1) =>
    if url.isEmpty then none
    else
      match upToGt r1 with
      | some (_, r2) =>
        match lazyDotToCloseA r2 with
        | some (txt, r3) => some (url, txt, r3)
        | none => none
      | none => none
  | none => none

/-- Backtracking search for the href literal inside the opening anchor
tag: the greedy non-greater-than run tries the rightmost href position
first and retries leftward on failure, stopping at the first right
angle bracket. -/
def searchHref : List Char → Option (List Char × List Char × List Char)
  | [] => none
  | c :: rest =>
    if decide (c = '>') then none
    else
      match searchHref rest with
      | some x => some x
      | none =>
        if ciPfx hrefPat (c :: rest) then tryAfterHref ((c :: rest).drop 6) else none

/-- Match of the link regex at the head of the input: a left angle
bracket, a case-insensitive letter a, then the backtracking href
search.  On success the markdown replacement and the remainder after
the match are returned. -/
def linkAt : List Char → Option (List Char × List Char)
  | '<' :: c :: rest =>
    if decide (c.toLower = 'a') then
      match searchHref rest with
      | some (url, txt, r3) =>
        some ('[' :: (txt ++ ']' :: '(' :: (linkBase ++ url ++ [')'])), r3)
      | none => none
    else none
  | _ => none

/-- Global link replacement scan of processLinks.  Fuelled. -/
def processLinksF : Nat → List Char → List Char
  | _, [] => []
  | 0, c :: rest => c :: rest
  | f+1, c :: rest =>
    match linkAt (c :: rest) with
    | some (rep, r) => rep ++ processLinksF f r
    | none => c :: processLinksF f rest

/-- Model of processLinks: every anchor with a quoted href is rewritten
to a markdown link whose target is the fixed base followed by the raw
href value. -/
def processLinks (s : List Char) : List Char := processLinksF s.length s

/-- The prefix of a split piece before the first literal closing
paragraph tag, as the inner split of extractCommentary takes. -/
def beforeCloseP : List Char → List Char
  | '<' :: '/' :: 'p' :: '>' :: _ => []
  | c :: rest => c :: beforeCloseP rest
  | [] => []

/-- The segment scan of extractCommentary: the first segment whose
link-converted, cleaned text is non-empty and longer than twenty
characters is returned. -/
def commentaryLoop : List (List Char) → List Char
  | [] => []
  | seg :: rest =>
    if (!(cleanHtml (processLinks (beforeCloseP seg))).isEmpty) &&
        decide ((cleanHtml (processLinks (beforeCloseP seg))).length > 20)
    then cleanHtml (processLinks (beforeCloseP seg))
    else commentaryLoop rest

/-- Model of extractCommentary: split on opening paragraph tags, skip
the first two pieces, scan the rest. -/
def extractCommentary (html : List Char) : List Char :=
  commentaryLoop ((splitPOpen html).drop 2)

/-- Spec-side description of the citation pattern scan: over the span
texts in document order, the first result of pattern one, else pattern
two. -/
def specCitationScan (contents : List (List Char)) : Option (List Char) :=
  contents.findSome? (fun c => (citePatternA c).orElse (fun _ => citePatternB c))

/-- Spec-side description of the commentary extractor: split into
paragraph segments, skip the first two positionally, convert links and
normalize each later segment, and return the first whose length exceeds
the minimum content threshold, else the empty string. -/
def specCommentary (html : List Char) : List Char :=
  (((splitPOpen html).drop 2).findSome? (fun seg =>
    if decide ((cleanHtml (processLinks (beforeCloseP seg))).length > 20)
    then some (cleanHtml (processLinks (beforeCloseP seg)))
    else none)).getD []

/-! Helper lemmas about trimming, the identity behaviour of the
cleaning passes on inputs without their trigger characters, and the
shapes of the loop results. -/

theorem dropWhile_self (p : Char → Bool) (l : List Char) :
    (l.dropWhile p).dropWhile p = l.dropWhile p := by
  induction l with
  | nil => rfl
  | cons c t ih =>
    by_cases h : p c
    · simp [List.dropWhile_cons, h, ih]
    · simp [List.dropWhile_cons, h]

theorem head_false_of_dropWhile (p : Char → Bool) (l : List Char) (c : Char) (t : List Char)
    (h : l.dropWhile p = c :: t) : p c = false := by
  induction l with
  | nil => simp at h
  | cons a l' ih =>
    rw [List.dropWhile_cons] at h
    by_cases ha : p a
    · rw [if_pos ha] at h; exact ih h
    · rw [if_neg ha] at h
      injection h with h1 _
      subst h1
      simpa using ha

theorem dropWhile_trim (l : List Char) :
    (trimList l).dropWhile isJsWs = trimList l := by
  show (((l.dropWhile isJsWs).reverse.dropWhile isJsWs).reverse).dropWhile isJsWs
      = ((l.dropWhile isJsWs).reverse.dropWhile isJsWs).reverse
  have hsplit : (l.dropWhile isJsWs).reverse.takeWhile isJsWs
      ++ (l.dropWhile isJsWs).reverse.dropWhile isJsWs = (l.dropWhile isJsWs).reverse :=
    List.takeWhile_append_dropWhile isJsWs _
  have hA : l.dropWhile isJsWs
      = ((l.dropWhile isJsWs).reverse.dropWhile isJsWs).reverse
        ++ ((l.dropWhile isJsWs).reverse.takeWhile isJsWs).reverse := by
    have h := congrArg List.reverse hsplit
    rw [List.reverse_append, List.reverse_reverse] at h
    exact h.symm
  cases hRB : ((l.dropWhile isJsWs).reverse.dropWhile isJsWs).reverse with
  | nil => simp
  | cons x xs =>
    rw [hRB] at hA
    have hx : isJsWs x = false := head_false_of_dropWhile isJsWs l x _ hA
    rw [List.dropWhile_cons, hx]
    simp

theorem trimList_trimList (l : List Char) : trimList (trimList l) = trimList l := by
  show (((trimList l).dropWhile isJsWs).reverse.dropWhile isJsWs).reverse = trimList l
  rw [dropWhile_trim l]
  have h2 : (trimList l).reverse = (l.dropWhile isJsWs).reverse.dropWhile isJsWs := by
    show ((((l.dropWhile isJsWs).reverse.dropWhile isJsWs)).reverse).reverse = _
    rw [List.reverse_reverse]
  rw [h2, dropWhile_self]
  show _ = (((l.dropWhile isJsWs).reverse.dropWhile isJsWs)).reverse
  rfl

theorem trimList_cleanHtml (x : List Char) : trimList (cleanHtml x) = cleanHtml x :=
  trimList_trimList _

theorem replF_self_of_headNot (p0 : Char) (pt rep : List Char) :
    ∀ (f : Nat) (s : List Char), p0 ∉ s → replF (p0 :: pt) rep f s = s := by
  intro f
  induction f with
  | zero => intro s _; cases s <;> rfl
  | succ f ih =>
    intro s hs
    cases s with
    | nil => rfl
    | cons c rest =>
      have hne : ¬ (p0 = c) := fun h => hs (by rw [h]; exact List.mem_cons_self c rest)
      have hpfx : isPfx (p0 :: pt) (c :: rest) = false := by
        simp [isPfx, hne]
      rw [replF, hpfx]
      simp [ih rest (fun h => hs (List.mem_cons_of_mem _ h))]

theorem replaceAll_self_of_headNot (p0 : Char) (pt rep s : List Char)
    (h : p0 ∉ s) : replaceAll (p0 :: pt) rep s = s :=
  replF_self_of_headNot p0 pt rep s.length s h

theorem stripTagsF_self_of_notMem :
    ∀ (f : Nat) (s : List Char), '<' ∉ s → stripTagsF f s = s := by
  intro f
  induction f with
  | zero => intro s _; cases s <;> rfl
  | succ f ih =>
    intro s hs
    cases s with
    | nil => rfl
    | cons c rest =>
      have hne : ¬ (c = '<') := fun h => hs (by rw [← h]; exact List.mem_cons_self c rest)
      have hd : decide (c = '<') = false := decide_eq_false hne
      rw [stripTagsF, hd]
      simp [ih rest (fun h => hs (List.mem_cons_of_mem _ h))]

theorem zwsp_notMem_replF :
    ∀ (f : Nat) (s : List Char), s.length ≤ f → zwspChar ∉ replF [zwspChar] [] f s := by
  intro f
  induction f with
  | zero =>
    intro s h
    have : s = [] := List.eq_nil_of_length_eq_zero (Nat.le_zero.mp h)
    subst this
    simp [replF]
  | succ f ih =>
    intro s hlen
    cases s with
    | nil => simp [replF]
    | cons c rest =>
      by_cases hc : zwspChar = c
      · have hpfx : isPfx [zwspChar] (c :: rest) = true := by simp [isPfx, hc]
        rw [replF, hpfx]
        simp only [if_true, List.nil_append, List.length_cons, List.length_nil]
        have hdrop : rest.drop (1 - 1) = rest := by simp
        rw [hdrop]
        exact ih rest (Nat.le_of_succ_le_succ hlen)
      · have hpfx : isPfx [zwspChar] (c :: rest) = false := by simp [isPfx, hc]
        rw [replF, hpfx]
        simp only [Bool.false_eq_true, if_false, List.mem_cons]
        intro h
        rcases h with h | h
        · exact hc h
        · exact ih rest (Nat.le_of_succ_le_succ hlen) h

theorem mem_of_mem_dropWhile (p : Char → Bool) (l : List Char) (c : Char)
    (h : c ∈ l.dropWhile p) : c ∈ l := by
  have hsplit : l.takeWhile p ++ l.dropWhile p = l := List.takeWhile_append_dropWhile p l
  rw [← hsplit]
  exact List.mem_append_right _ h

theorem mem_of_mem_trimList (c : Char) (l : List Char) (h : c ∈ trimList l) : c ∈ l := by
  have h1 : c ∈ ((l.dropWhile isJsWs).reverse.dropWhile isJsWs).reverse := h
  rw [List.mem_reverse] at h1
  have h2 := mem_of_mem_dropWhile _ _ _ h1
  rw [List.mem_reverse] at h2
  exact mem_of_mem_dropWhile _ _ _ h2

theorem zwsp_notMem_cleanHtml (s : List Char) : zwspChar ∉ cleanHtml s := by
  intro h
  have h2 := mem_of_mem_trimList _ _ h
  exact zwsp_notMem_replF _ _ (Nat.le_refl _) h2

theorem cleanHtml_eq_trim (y : List Char) (h1 : '<' ∉ y) (h2 : '&' ∉ y)
    (h3 : zwspChar ∉ y) : cleanHtml y = trimList y := by
  have e0 : stripTags y = y := stripTagsF_self_of_notMem _ _ h1
  have e1 : replaceAll entNbsp [' '] y = y := replaceAll_self_of_headNot _ _ _ _ h2
  have e2 : replaceAll entAmp ['&'] y = y := replaceAll_self_of_headNot _ _ _ _ h2
  have e3 : replaceAll entLt ['<'] y = y := replaceAll_self_of_headNot _ _ _ _ h2
  have e4 : replaceAll entGt ['>'] y = y := replaceAll_self_of_headNot _ _ _ _ h2
  have e5 : replaceAll entQuot [Char.ofNat 34] y = y := replaceAll_self_of_headNot _ _ _ _ h2
  have e6 : replaceAll entApos [Char.ofNat 39] y = y := replaceAll_self_of_headNot _ _ _ _ h2
  have e7 : replaceAll entZwsp [] y = y := replaceAll_self_of_headNot _ _ _ _ h2
  have e8 : replaceAll [zwspChar] [] y = y := replaceAll_self_of_headNot _ _ _ _ h3
  show trimList (replaceAll [zwspChar] []
    (replaceAll entZwsp []
      (replaceAll entApos [Char.ofNat 39]
        (replaceAll entQuot [Char.ofNat 34]
          (replaceAll entGt ['>']
            (replaceAll entLt ['<']
              (replaceAll entAmp ['&']
                (replaceAll entNbsp [' ']
                  (stripTags y))))))))) = trimList y
  rw [e0, e1, e2, e3, e4, e5, e6, e7, e8]

theorem scriptureParaLoop_shape (ps : List (List Char)) (r : List Char)
    (h : scriptureParaLoop ps = some r) : ∃ z, r = trimList z := by
  induction ps with
  | nil => simp [scriptureParaLoop] at h
  | cons para rest ih =>
    rw [scriptureParaLoop] at h
    split_ifs at h with h1 h2
    · exact ih h
    · exact ih h
    · exact ⟨_, (Option.some.inj h).symm⟩

theorem scriptureEmLoop_shape (l : List (List Char)) (r : List Char)
    (h : scriptureEmLoop l = some r) : ∃ z, r = trimList z := by
  induction l with
  | nil => simp [scriptureEmLoop] at h
  | cons content rest ih =>
    rw [scriptureEmLoop] at h
    split_ifs at h with h1
    · exact ⟨_, (Option.some.inj h).symm⟩
    · exact ih h

theorem citePatternA_shape (c r : List Char) (h : citePatternA c = some r) :
    ∃ z, r = trimList z := by
  unfold citePatternA at h
  split at h
  · split_ifs at h
    exact ⟨_, (Option.some.inj h).symm⟩
  · exact absurd h (by simp)

theorem citePatternB_shape (c r : List Char) (h : citePatternB c = some r) :
    ∃ z, r = trimList z := by
  unfold citePatternB at h
  split_ifs at h
  exact ⟨_, (Option.some.inj h).symm⟩

theorem citationLoop_shape (l : List (List Char)) (r : List Char)
    (h : citationLoop l = some r) : ∃ z, r = trimList z := by
  induction l with
  | nil => simp [citationLoop] at h
  | cons content rest ih =>
    rw [citationLoop] at h
    cases hA : citePatternA content with
    | some rA =>
      rw [hA] at h
      exact citePatternA_shape content r (hA.trans (congrArg some (Option.some.inj h)))
    | none =>
      rw [hA] at h
      cases hB : citePatternB content with
      | some rB =>
        rw [hB] at h
        exact citePatternB_shape content r (hB.trans (congrArg some (Option.some.inj h)))
      | none =>
        rw [hB] at h
        exact ih h

theorem trim_commentaryLoop (segs : List (List Char)) :
    trimList (commentaryLoop segs) = commentaryLoop segs := by
  induction segs with
  | nil => rfl
  | cons seg rest ih =>
    rw [commentaryLoop]
    split_ifs with h
    · exact trimList_cleanHtml _
    · exact ih

theorem citationLoop_eq_scan (l : List (List Char)) :
    citationLoop l = specCitationScan l := by
  induction l with
  | nil => rfl
  | cons content rest ih =>
    rw [citationLoop, specCitationScan, List.findSome?_cons]
    cases hA : citePatternA content with
    | some rA => simp [hA, Option.orElse]
    | none =>
      cases hB : citePatternB content with
      | some rB => simp [hA, hB, Option.orElse]
      | none => simp [hA, hB, Option.orElse, ih, specCitationScan]

theorem commentaryLoop_eq_scan (segs : List (List Char)) :
    commentaryLoop segs = (segs.findSome? (fun seg =>
      if decide ((cleanHtml (processLinks (beforeCloseP seg))).length > 20)
      then some (cleanHtml (processLinks (beforeCloseP seg))) else none)).getD [] := by
  induction segs with
  | nil => rfl
  | cons seg rest ih =>
    rw [commentaryLoop]
    by_cases h20 : (cleanHtml (processLinks (beforeCloseP seg))).length > 20
    · have hne : (cleanHtml (processLinks (beforeCloseP seg))).isEmpty = false := by
        cases hc : cleanHtml (processLinks (beforeCloseP seg)) with
        | nil => rw [hc] at h20; simp at h20
        | cons _ _ => rfl
      simp [List.findSome?_cons, h20, hne]
    · simp [List.findSome?_cons, h20, ih]

theorem ciPfx_of_prefix (w : List Char) :
    ∀ (r s : List Char), ciPfx w r = true → r <+: s → ciPfx w s = true := by
  induction w with
  | nil => intro r s _ _; rfl
  | cons p ps ih =>
    intro r s hp hpre
    cases r with
    | nil => simp [ciPfx] at hp
    | cons c cs =>
      obtain ⟨t, ht⟩ := hpre
      rw [← ht, List.cons_append]
      rw [ciPfx] at hp ⊢
      simp only [Bool.and_eq_true] at hp ⊢
      exact ⟨hp.1, ih _ _ hp.2 ⟨t, rfl⟩⟩

theorem startsWeekday_of_prefix (r s : List Char) (h : startsWeekday r = true)
    (hpre : r <+: s) : startsWeekday s = true := by
  rw [startsWeekday, List.any_eq_true] at h ⊢
  obtain ⟨w, hw, hciw⟩ := h
  exact ⟨w, hw, ciPfx_of_prefix _ _ _ hciw hpre⟩

theorem dropWhile_suffix (p : Char → Bool) (l : List Char) : l.dropWhile p <:+ l :=
  ⟨l.takeWhile p, List.takeWhile_append_dropWhile p l⟩

theorem reverse_dropWhile_reverse_prefix (p : Char → Bool) (l : List Char) :
    (l.reverse.dropWhile p).reverse <+: l := by
  have h := dropWhile_suffix p l.reverse
  have h2 : (l.reverse.dropWhile p).reverse <+: l.reverse.reverse :=
    List.reverse_prefix.mpr h
  rwa [List.reverse_reverse] at h2

theorem dropTrailingDashes_prefix (s : List Char) : dropTrailingDashes s <+: s :=
  reverse_dropWhile_reverse_prefix isDashChar s

theorem dropWhile_eq_self_of_prefix (p : Char → Bool) (t t' : List Char)
    (ht : t.dropWhile p = t) (hpre : t' <+: t) : t'.dropWhile p = t' := by
  cases t' with
  | nil => rfl
  | cons c cs =>
    obtain ⟨u, hu⟩ := hpre
    rw [← hu, List.cons_append] at ht
    have hc : p c = false := head_false_of_dropWhile p _ c _ ht
    rw [List.dropWhile_cons, hc]
    simp

theorem trimList_prefix_of_head (t : List Char) (ht : t.dropWhile isJsWs = t) :
    trimList t <+: t := by
  show (((t.dropWhile isJsWs).reverse.dropWhile isJsWs)).reverse <+: t
  rw [ht]
  exact reverse_dropWhile_reverse_prefix isJsWs t

theorem scriptureReturn_prefix (y : List Char) :
    trimList (dropTrailingDashes (cleanHtml y)) <+: cleanHtml y := by
  have h1 : dropTrailingDashes (cleanHtml y) <+: cleanHtml y := dropTrailingDashes_prefix _
  have h2 : (cleanHtml y).dropWhile isJsWs = cleanHtml y := dropWhile_trim _
  have h3 : (dropTrailingDashes (cleanHtml y)).dropWhile isJsWs
      = dropTrailingDashes (cleanHtml y) :=
    dropWhile_eq_self_of_prefix _ _ _ h2 h1
  exact (trimList_prefix_of_head _ h3).trans h1

theorem pTagRest_mono (s r : List Char) (h : pTagRest false s = some r) :
    pTagRest true s = some r := by
  unfold pTagRest at h ⊢
  split at h
  · simp at h
  · simpa using h
  · simp at h

theorem splitTagF_of_noPTags (slash : Bool) :
    ∀ (s : List Char), noPTagsFrom s = true → ∀ (f : Nat) (acc : List Char),
      splitTagF slash f acc s = [acc.reverse ++ s] := by
  intro s
  induction s with
  | nil => intro _ f acc; cases f <;> simp [splitTagF]
  | cons c rest ih =>
    intro hn f acc
    rw [noPTagsFrom] at hn
    simp only [Bool.and_eq_true, Option.isNone_iff_eq_none] at hn
    cases f with
    | zero => rfl
    | succ f =>
      have hnone : pTagRest slash (c :: rest) = none := by
        cases slash
        · cases hh : pTagRest false (c :: rest) with
          | none => rfl
          | some r0 => exact absurd (pTagRest_mono _ _ hh) (by rw [hn.1]; simp)
        · exact hn.1
      rw [splitTagF, hnone]
      rw [ih hn.2 f (c :: acc)]
      simp

/-! The claim theorems. -/

/-- C1 (amended): for the embedded-format input with a single emphasis
span containing an embedded citation, the scripture extractor returns
the whole span text including the em dash and the citation, because the
whole fragment is one paragraph segment passing every rejection check
and no path splits at the em dash; and the citation extractor returns
the empty string, because its dash pattern is anchored at the start of
a span text and the second-span fallback needs two spans. -/
theorem extractors_embedded_format :
    extractScripture "<em>In everything let love rule.—1 Cor. 13:8.</em>".data
      = "In everything let love rule.—1 Cor. 13:8.".data ∧
    extractCitation "<em>In everything let love rule.—1 Cor. 13:8.</em>".data = [] := by
  decide

/-- C1 (counterexample): on the embedded-format input the extractors do
not return the split scripture and citation parts the claim states. -/
theorem extractors_embedded_format_cex :
    ¬ (extractScripture "<em>In everything let love rule.—1 Cor. 13:8.</em>".data
         = "In everything let love rule.".data ∧
       extractCitation "<em>In everything let love rule.—1 Cor. 13:8.</em>".data
         = "1 Cor. 13:8.".data) := by
  decide

/-- C2: whenever the span-major scan that tests each emphasis-span text
against pattern one (em dash then bible-reference shape) and then
pattern two (the shape alone) yields a first match, the citation
extractor returns exactly that match, which is the trimmed reference
portion. -/
theorem extractCitation_first_pattern_match (html r : List Char)
    (h : specCitationScan (emContents html) = some r) :
    extractCitation html = r := by
  rw [extractCitation]
  have hne : (emMatches html).isEmpty = false := by
    cases hE : emMatches html with
    | nil =>
      exfalso
      have hc : emContents html = [] := by rw [emContents, hE]; rfl
      rw [hc] at h
      exact absurd h (by simp [specCitationScan])
    | cons _ _ => rfl
  rw [hne]
  simp only [Bool.false_eq_true, if_false]
  rw [citationLoop_eq_scan, h]

/-- C2 (witness): the pattern scan matches on a dashed citation span
and the citation extractor returns the trimmed reference portion. -/
theorem extractCitation_first_pattern_match_w :
    specCitationScan (emContents "<em>—1 Cor. 13:8</em>".data) = some "1 Cor. 13:8".data ∧
    extractCitation "<em>—1 Cor. 13:8</em>".data = "1 Cor. 13:8".data :=
  ⟨by decide,
    extractCitation_first_pattern_match "<em>—1 Cor. 13:8</em>".data
      "1 Cor. 13:8".data (by decide)⟩

/-- C3 (amended): the normalizer is idempotent on every input whose
normalized form contains no left angle bracket and no ampersand; in
general idempotence fails, because entity decoding can reintroduce
markup that a second pass strips. -/
theorem cleanHtml_idem_of_plain (x : List Char)
    (h1 : '<' ∉ cleanHtml x) (h2 : '&' ∉ cleanHtml x) :
    cleanHtml (cleanHtml x) = cleanHtml x := by
  rw [cleanHtml_eq_trim _ h1 h2 (zwsp_notMem_cleanHtml x)]
  exact trimList_cleanHtml x

/-- C3 (counterexample): normalizing the already-normalized text of the
input with encoded angle brackets changes it, since the first pass
decodes the entities into a tag that the second pass strips. -/
theorem cleanHtml_not_idempotent_cex :
    ¬ (cleanHtml (cleanHtml "&lt;b&gt;".data) = cleanHtml "&lt;b&gt;".data) := by
  decide

/-- C3 (witness): the amended idempotence applies to a plain padded
text. -/
theorem cleanHtml_idem_of_plain_w :
    '<' ∉ cleanHtml " hello there ".data ∧ '&' ∉ cleanHtml " hello there ".data ∧
    cleanHtml (cleanHtml " hello there ".data) = cleanHtml " hello there ".data :=
  ⟨by decide, by decide, cleanHtml_idem_of_plain " hello there ".data (by decide) (by decide)⟩

/-- C4 (amended): the paragraph-scanning path of the scripture
extractor never returns a weekday-prefixed value: whatever the
candidate list, a successful paragraph scan yields a text that does not
start with a weekday name, because the returned value is a prefix of
the cleaned paragraph and the weekday rejection check held for that
paragraph. -/
theorem scriptureParaLoop_no_weekday (ps : List (List Char)) (r : List Char)
    (h : scriptureParaLoop ps = some r) : startsWeekday r = false := by
  induction ps with
  | nil => simp [scriptureParaLoop] at h
  | cons para rest ih =>
    rw [scriptureParaLoop] at h
    split_ifs at h with h1 h2
    · exact ih h
    · exact ih h
    · have hr : r = trimList (dropTrailingDashes (cleanHtml para)) := (Option.some.inj h).symm
      have hwk : startsWeekday (cleanHtml para) = false := by
        cases hx : startsWeekday (cleanHtml para) with
        | false => rfl
        | true => exact absurd (by rw [rejectPara, hx]; simp) h2
      cases hs : startsWeekday r with
      | false => rfl
      | true =>
        exfalso
        have hps : r <+: cleanHtml para := hr ▸ scriptureReturn_prefix para
        have hcontra := startsWeekday_of_prefix r (cleanHtml para) hs hps
        rw [hcontra] at hwk
        simp at hwk

/-- C4 (counterexample): the emphasis-span fallback has no weekday
check, so a weekday-prefixed span text is returned by the scripture
extractor. -/
theorem scripture_weekday_fallback_cex :
    extractScripture "<em>Monday, January 5 something</em>".data
      = "Monday, January 5 something".data ∧
    startsWeekday "Monday, January 5 something".data = true := by
  decide

/-- C4 (witness): the paragraph scan succeeds on a plain candidate and
the returned value is not weekday-prefixed. -/
theorem scriptureParaLoop_no_weekday_w :
    startsWeekday "Jehovah gives power to the tired ones".data = false :=
  scriptureParaLoop_no_weekday ["Jehovah gives power to the tired ones".data]
    "Jehovah gives power to the tired ones".data (by decide)

/-- C5: for every input with no emphasis-span matches and no paragraph
segments, in the sense that no paragraph tag occurs and the single
remaining split piece is blank or at most ten characters long, all
three extractors return the empty string; the extractors are total
functions, so no error can be raised. -/
theorem extractors_empty_on_degenerate (html : List Char)
    (h1 : emMatches html = [])
    (h2 : noPTagsFrom html = true)
    (h3 : (trimList html).isEmpty = true ∨ html.length ≤ 10) :
    extractScripture html = [] ∧ extractCitation html = [] ∧ extractCommentary html = [] := by
  have hsplitT : splitPTags html = [html] := by
    rw [splitPTags, splitTagF_of_noPTags true html h2 html.length []]
    rfl
  have hsplitO : splitPOpen html = [html] := by
    rw [splitPOpen, splitTagF_of_noPTags false html h2 html.length []]
    rfl
  have hcond : ((!(trimList html).isEmpty) && decide (html.length > 10)) = false := by
    rcases h3 with h3 | h3
    · rw [h3]; rfl
    · have hd : decide (html.length > 10) = false := decide_eq_false (by omega)
      rw [hd, Bool.and_false]
  have hparas : paragraphs html = [] := by
    rw [paragraphs, hsplitT]
    simp [List.filter_cons, hcond]
  have hEmC : emContents html = [] := by rw [emContents, h1]; rfl
  refine ⟨?_, ?_, ?_⟩
  · rw [extractScripture, hparas, hEmC]
    rfl
  · rw [extractCitation, h1]
    rfl
  · rw [extractCommentary, hsplitO]
    rfl

/-- C5 (witness): a short plain input has no emphasis spans, no
paragraph tags and only a trivial piece, and all three extractors
return the empty string on it. -/
theorem extractors_empty_on_degenerate_w :
    emMatches "hi!".data = [] ∧ noPTagsFrom "hi!".data = true ∧
    (extractScripture "hi!".data = [] ∧ extractCitation "hi!".data = [] ∧
      extractCommentary "hi!".data = []) :=
  ⟨by decide, by decide,
    extractors_empty_on_degenerate "hi!".data (by decide) (by decide) (Or.inr (by decide))⟩

/-- C6: for every input, the commentary extractor agrees with the
spec-side description: split on opening paragraph tags, skip the first
two pieces positionally, convert links and normalize each later piece,
and return the first whose length exceeds the minimum content
threshold, else the empty string. -/
theorem extractCommentary_matches_spec (html : List Char) :
    extractCommentary html = specCommentary html := by
  rw [extractCommentary, specCommentary]
  exact commentaryLoop_eq_scan _

/-- C7 (amended): on commentary input whose selected segment carries an
inline anchor, the output contains a markdown-style link whose visible
text is the anchor text and whose target is the raw href prefixed with
the fixed base https colon slash slash wol.jw.org/en, which for a
root-relative href duplicates the /en path component rather than
resolving against the feed origin. -/
theorem extractCommentary_link_fixed_base :
    extractCommentary "<p>Header today</p><p>Scripture line</p><p>Study this: <a href=\"/en/wol/d/r1/lp-e/123\">study note</a> carefully today.</p>".data
      = "Study this: [study note](https://wol.jw.org/en/en/wol/d/r1/lp-e/123) carefully today.".data := by
  decide

/-- C7 (counterexample): the output contains the fixed-base link with
the duplicated /en component and does not contain the target that
resolving the href against the feed origin would give. -/
theorem extractCommentary_link_origin_cex :
    containsSub "[study note](https://wol.jw.org/en/en/wol/d/r1/lp-e/123)".data
      (extractCommentary "<p>Header today</p><p>Scripture line</p><p>Study this: <a href=\"/en/wol/d/r1/lp-e/123\">study note</a> carefully today.</p>".data) = true ∧
    containsSub "(https://wol.jw.org/en/wol/d/r1/lp-e/123)".data
      (extractCommentary "<p>Header today</p><p>Scripture line</p><p>Study this: <a href=\"/en/wol/d/r1/lp-e/123\">study note</a> carefully today.</p>".data) = false := by
  decide

/-- C8 (amended): on the traditional-format input with two emphasis
spans, the citation extractor returns the second-span reference, and
the scripture extractor returns the tag-stripped concatenation of both
spans, because the whole fragment is a single paragraph segment that
passes every rejection check. -/
theorem extractors_traditional_format :
    extractCitation "<em>For God so loved the world.</em><em>John 3:16</em>".data
      = "John 3:16".data ∧
    extractScripture "<em>For God so loved the world.</em><em>John 3:16</em>".data
      = "For God so loved the world.John 3:16".data := by
  decide

/-- C8 (counterexample): on the traditional-format input the scripture
extractor does not return only the first-span text, so the claimed pair
of results does not hold. -/
theorem extractors_traditional_format_cex :
    ¬ (extractCitation "<em>For God so loved the world.</em><em>John 3:16</em>".data
         = "John 3:16".data ∧
       extractScripture "<em>For God so loved the world.</em><em>John 3:16</em>".data
         = "For God so loved the world.".data) := by
  decide

/-- C9: for every input, each of the three extractor results carries no
leading or trailing whitespace: each result equals its own trim. -/
theorem extract_results_trimmed (html : List Char) :
    trimList (extractScripture html) = extractScripture html ∧
    trimList (extractCitation html) = extractCitation html ∧
    trimList (extractCommentary html) = extractCommentary html := by
  refine ⟨?_, ?_, ?_⟩
  · rw [extractScripture]
    cases hP : scriptureParaLoop (paragraphs html) with
    | some r =>
      obtain ⟨z, hz⟩ := scriptureParaLoop_shape _ _ hP
      rw [hz]; exact trimList_trimList z
    | none =>
      cases hE : scriptureEmLoop (emContents html) with
      | some r =>
        obtain ⟨z, hz⟩ := scriptureEmLoop_shape _ _ hE
        rw [hz]; exact trimList_trimList z
      | none => rfl
  · rw [extractCitation]
    split_ifs with hne
    · rfl
    · cases hC : citationLoop (emContents html) with
      | some r =>
        obtain ⟨z, hz⟩ := citationLoop_shape _ _ hC
        rw [hz]; exact trimList_trimList z
      | none =>
        cases hEm : emContents html with
        | nil => rfl
        | cons c0 t0 =>
          cases t0 with
          | nil => rfl
          | cons c1 t1 =>
            have hc1 : c1 ∈ emContents html := by
              rw [hEm]; exact List.mem_cons_of_mem _ (List.mem_cons_self _ _)
            rw [emContents] at hc1
            obtain ⟨em, _, hem⟩ := List.mem_map.mp hc1
            rw [← hem]
            exact trimList_cleanHtml _
  · rw [extractCommentary]
    exact trim_commentaryLoop _

/-- C10 (amended): the normalizer decodes the ampersand entity before
the less-than, greater-than, quote and apostrophe entities, so
double-encoded forms of those four are fully decoded in a single pass;
but the non-breaking-space entity is decoded before the ampersand
entity, so its double-encoded form is left as an entity after one
pass. -/
theorem cleanHtml_amp_before_angle_entities :
    cleanHtml "&amp;lt;".data = "<".data ∧
    cleanHtml "&amp;gt;".data = ">".data ∧
    cleanHtml "&amp;quot;".data = [Char.ofNat 34] ∧
    cleanHtml "&amp;#39;".data = [Char.ofNat 39] ∧
    cleanHtml "&amp;nbsp;".data = "&nbsp;".data := by
  decide

/-- C10 (counterexample): the double-encoded non-breaking-space entity
is not fully decoded in a single pass, since the normalizer leaves the
entity form that a second pass then decodes away. -/
theorem cleanHtml_double_encoded_nbsp_cex :
    cleanHtml "&amp;nbsp;".data = "&nbsp;".data ∧
    cleanHtml (cleanHtml "&amp;nbsp;".data) = [] := by
  decide
